import Mathlib

/-!
# godbledger: the transaction commit pipeline

A shallow embedding of `godbledger/ledger/ledger.go` (`Ledger.Insert`,
`Ledger.GetCurrencies`, `Ledger.GetAccounts`) and of `server/db/dbfuncs.go`
(`AddTransaction`, `Find*`, `Add*`, `SafeAdd*`).

Modelling conventions.

* Go pointers (`*core.Currency`, `*core.Account`, `*core.User`) are addresses
  (`Ptr`); the records they point to live in a `Heap`.  The comparison `b == cur`
  of two pointers in the source is equality of addresses.  Nil pointers are not
  modelled: every pointer of a transaction points to a record.
* The storage engine (SQLite behind `database/sql`) is outside the repository.
  Its tables are lists of rows in insertion order.  Whether it executes a
  statement is not decided by the repository's code, so it is an `Engine`
  parameter; the effect of an executed `INSERT` is to append the bound row(s).
  Queries (`SELECT ... LIMIT 1`) return the first matching row.
* `log.Fatal(err)` ends the process: the run stops and the last committed state
  is what is left behind (`Run.fatal`).  A statement the engine does not execute
  ends the run this way, be it at `Prepare` (the error is dropped and `Exec` on the
  nil statement panics) or at `Exec`.  A function that returns does so with a nil
  error (`Run.done`).
-/

namespace GoDBLedger

/-! ## Data model (package `core`) -/

/-- An address of a record on the Go heap. -/
abbrev Ptr := Nat

/-- Go `time.Time`, as an instant. -/
abbrev Time := Int

/-- Modelled from the spec: `core.User` (its declaration is not among the sources);
the fields are the ones the code reads, `usr.Id` and `usr.Name`. -/
structure User where
  Id : String
  Name : String
  deriving DecidableEq, Repr

/-- Modelled from the spec: `core.Currency` (its declaration is not among the sources);
name (unique key) and decimal-precision count, read as `cur.Name`, `cur.Decimals`. -/
structure Currency where
  Name : String
  Decimals : Int
  deriving DecidableEq, Repr

/-- Modelled from the spec: `core.Account` (its declaration is not among the sources);
code (unique key) and display name, read as `acc.Code`, `acc.Name`. -/
structure Account where
  Code : String
  Name : String
  deriving DecidableEq, Repr

/-- Modelled from the spec: `core.Split` (its declaration is not among the sources);
identifier, date, description, reference to one currency, references to accounts and a
signed amount.  The code reads `Id`, `Date`, `Description`, `Currency`, `Accounts`. -/
structure Split where
  Id : String
  Date : Time
  Description : String
  Accounts : List Ptr
  Currency : Ptr
  Amount : Int
  deriving DecidableEq, Repr

/-- Modelled from the spec: `core.Transaction` (its declaration is not among the sources);
identifier, post date, description, poster and the ordered sequence of splits. -/
structure Transaction where
  Id : String
  Postdate : Time
  Description : String
  Poster : Ptr
  Splits : List Split
  deriving DecidableEq, Repr

/-- The Go heap: the record each pointer points to. -/
structure Heap where
  user : Ptr → User
  currency : Ptr → Currency
  account : Ptr → Account

/-! ## Storage state -/

/-- A value bound to a `?` placeholder of a statement. -/
inductive Value where
  | text (s : String)
  | int (i : Int)
  | time (t : Time)
  deriving DecidableEq, Repr

/-- Row of `users(user_id, username)`. -/
structure UserRow where
  user_id : String
  username : String
  deriving DecidableEq, Repr

/-- Row of `currencies(name, decimals)`. -/
structure CurrencyRow where
  name : String
  decimals : Int
  deriving DecidableEq, Repr

/-- Row of `accounts(account_id, name)`. -/
structure AccountRow where
  account_id : String
  name : String
  deriving DecidableEq, Repr

/-- Row of `account_tags(account_id, tag)`. -/
structure TagRow where
  account_id : String
  tag : String
  deriving DecidableEq, Repr

/-- Row of `transactions(transaction_id, postdate, brief)`. -/
structure TransactionRow where
  transaction_id : String
  postdate : Time
  brief : String
  deriving DecidableEq, Repr

/-- Row of `splits(split_id, split_date, description, currency, amount, transaction_id)`.
A column that an `INSERT` does not name is NULL (`none`). -/
structure SplitRow where
  split_id : String
  split_date : Time
  description : String
  currency : String
  amount : Int
  transaction_id : Option String
  deriving DecidableEq, Repr

/-- The persisted state: the six tables, rows in insertion order. -/
structure DB where
  users : List UserRow
  currencies : List CurrencyRow
  accounts : List AccountRow
  account_tags : List TagRow
  transactions : List TransactionRow
  splits : List SplitRow
  deriving DecidableEq, Repr

/-- The state with all tables empty. -/
def DB.empty : DB := ⟨[], [], [], [], [], []⟩

/-- A statement handed to the engine: its text and the values bound to it. -/
structure Statement where
  sql : String
  args : List Value
  deriving DecidableEq, Repr

/-- The storage engine as far as the code can observe it: whether `stmt.Exec`
succeeds for a statement on a state. -/
structure Engine where
  accepts : Statement → DB → Bool

/-- An engine that executes every statement it is given. -/
def Engine.reliable : Engine := ⟨fun _ _ => true⟩

/-- How a call ends: it returns (with a nil error) in state `db`, or `log.Fatal`
ends the process and `db` is the state left behind. -/
inductive Run where
  | done (db : DB)
  | fatal (db : DB)
  deriving DecidableEq, Repr

/-- The storage state at the end of the run. -/
def Run.db : Run → DB
  | .done db => db
  | .fatal db => db

/-- Sequencing: the next call runs only when the previous one returned. -/
def Run.andThen (r : Run) (f : DB → Run) : Run :=
  match r with
  | .done db => f db
  | .fatal db => .fatal db

/-! ## `server/db/dbfuncs.go` -/

/-- Go `strings.TrimSuffix`. -/
def TrimSuffix (s suffix : String) : String :=
  if suffix.data.isSuffixOf s.data then
    ⟨s.data.take (s.data.length - suffix.data.length)⟩
  else s

/-- The statement text of the header insert. -/
def insertTransaction : String :=
  "\n\t\tINSERT INTO transactions(transaction_id, postdate, brief)\n\t\t\tVALUES(?,?,?);\n\t"

/-- The header statement with its bound values:
`stmt.Exec(txn.Id, txn.Postdate, string(txn.Description[:]))`. -/
def headerStatement (txn : Transaction) : Statement :=
  ⟨insertTransaction, [.text txn.Id, .time txn.Postdate, .text txn.Description]⟩

/-- The row the header statement inserts. -/
def headerRow (txn : Transaction) : TransactionRow :=
  ⟨txn.Id, txn.Postdate, txn.Description⟩

/-- The text of the split statement: one `(?, ?, ?, ?, ?),` group per split appended
to the column list, the trailing comma trimmed. -/
def splitSqlStr (txn : Transaction) : String :=
  TrimSuffix
    (txn.Splits.foldl (fun sqlStr _ => sqlStr ++ "(?, ?, ?, ?, ?),")
      "INSERT INTO splits(split_id, split_date, description, currency, amount)")
    ","

/-- The values bound to the split statement:
`vals = append(vals, split.Id, split.Date, string(split.Description[:]), split.Currency.Name, 10)`
for each split in order. -/
def splitVals (h : Heap) (txn : Transaction) : List Value :=
  txn.Splits.foldl
    (fun vals split =>
      vals ++ [.text split.Id, .time split.Date, .text split.Description,
               .text (h.currency split.Currency).Name, .int 10])
    []

/-- The split statement with its bound values. -/
def splitStatement (h : Heap) (txn : Transaction) : Statement :=
  ⟨splitSqlStr txn, splitVals h txn⟩

/-- The rows a bulk insert into
`splits(split_id, split_date, description, currency, amount)` writes for its bound
values: one row per group of five, the unnamed column `transaction_id` NULL. -/
def rowsOfVals : List Value → List SplitRow
  | .text id :: .time d :: .text desc :: .text cur :: .int amt :: rest =>
      ⟨id, d, desc, cur, amt, none⟩ :: rowsOfVals rest
  | _ => []

/-- What `AddTransaction` does: the states after each `tx.Commit()`, in order, and
how the call ends. -/
structure AddTransactionRun where
  commits : List DB
  result : Run
  deriving DecidableEq, Repr

/-- Method `LedgerDB.AddTransaction`: the header insert in one storage transaction,
committed; then the bulk split insert in a second one, committed. -/
def AddTransaction (eng : Engine) (h : Heap) (txn : Transaction) (db : DB) :
    AddTransactionRun :=
  if eng.accepts (headerStatement txn) db then
    let db1 := { db with transactions := db.transactions ++ [headerRow txn] }
    -- tx.Commit()
    if eng.accepts (splitStatement h txn) db1 then
      let db2 := { db1 with splits := db1.splits ++ rowsOfVals (splitVals h txn) }
      -- tx.Commit()
      ⟨[db1, db2], .done db2⟩
    else
      ⟨[db1], .fatal db1⟩
  else
    ⟨[], .fatal db⟩

/-- Method `LedgerDB.FindCurrency`: `SELECT * FROM currencies WHERE name = $1 LIMIT 1`. -/
def FindCurrency (db : DB) (cur : String) : Option Currency :=
  (db.currencies.find? (fun r => r.name == cur)).map (fun r => ⟨r.name, r.decimals⟩)

/-- The statement text of the currency insert. -/
def insertCurrency : String :=
  "\n\t\tINSERT INTO currencies(name,decimals)\n\t\t\tVALUES(?,?);\n\t"

/-- Method `LedgerDB.AddCurrency`. -/
def AddCurrency (eng : Engine) (cur : Currency) (db : DB) : Run :=
  if eng.accepts ⟨insertCurrency, [.text cur.Name, .int cur.Decimals]⟩ db then
    .done { db with currencies := db.currencies ++ [⟨cur.Name, cur.Decimals⟩] }
  else .fatal db

/-- Method `LedgerDB.SafeAddCurrency`. -/
def SafeAddCurrency (eng : Engine) (cur : Currency) (db : DB) : Run :=
  match FindCurrency db cur.Name with
  | some _ => .done db
  | none => AddCurrency eng cur db

/-- Method `LedgerDB.FindAccount`: `SELECT * FROM accounts WHERE account_id = $1 LIMIT 1`. -/
def FindAccount (db : DB) (code : String) : Option Account :=
  (db.accounts.find? (fun r => r.account_id == code)).map (fun r => ⟨r.account_id, r.name⟩)

/-- The statement text of the account insert. -/
def insertAccount : String :=
  "\n\t\tINSERT INTO accounts(account_id, name)\n\t\t\tVALUES(?,?);\n\t"

/-- Method `LedgerDB.AddAccount`. -/
def AddAccount (eng : Engine) (acc : Account) (db : DB) : Run :=
  if eng.accepts ⟨insertAccount, [.text acc.Code, .text acc.Name]⟩ db then
    .done { db with accounts := db.accounts ++ [⟨acc.Code, acc.Name⟩] }
  else .fatal db

/-- Method `LedgerDB.SafeAddAccount`. -/
def SafeAddAccount (eng : Engine) (acc : Account) (db : DB) : Run :=
  match FindAccount db acc.Code with
  | some _ => .done db
  | none => AddAccount eng acc db

/-- Method `LedgerDB.FindUser`: `SELECT * FROM users WHERE username = $1 LIMIT 1`. -/
def FindUser (db : DB) (pubKey : String) : Option User :=
  (db.users.find? (fun r => r.username == pubKey)).map (fun r => ⟨r.user_id, r.username⟩)

/-- The statement text of the user insert. -/
def insertUser : String :=
  "\n\t\tINSERT INTO users(user_id, username)\n\t\t\tVALUES(?,?);\n\t"

/-- Method `LedgerDB.AddUser`. -/
def AddUser (eng : Engine) (usr : User) (db : DB) : Run :=
  if eng.accepts ⟨insertUser, [.text usr.Id, .text usr.Name]⟩ db then
    .done { db with users := db.users ++ [⟨usr.Id, usr.Name⟩] }
  else .fatal db

/-- Method `LedgerDB.SafeAddUser`. -/
def SafeAddUser (eng : Engine) (usr : User) (db : DB) : Run :=
  match FindUser db usr.Name with
  | some _ => .done db
  | none => AddUser eng usr db

/-- Modelled from the spec: `LedgerDB.SafeAddTagToAccount` is not among the sources.
`addTag(accountCode, tag) -> ok|error`, rows of `account_tags(account_id, tag)`, and
"Tag membership on an Account is a set (no duplicate tags)": the pair is added under
the given account key unless it is already there. -/
def SafeAddTagToAccount (account tag : String) (db : DB) : Run :=
  if (⟨account, tag⟩ : TagRow) ∈ db.account_tags then .done db
  else .done { db with account_tags := db.account_tags ++ [⟨account, tag⟩] }

/-! ## `godbledger/ledger/ledger.go` -/

/-- Method `Ledger.GetCurrencies`: the currency pointers of the splits, a pointer appended
unless the list built so far already holds an equal pointer; the error is nil. -/
def GetCurrencies (txn : Transaction) : List Ptr × Option String :=
  let currencies := txn.Splits.foldl
    (fun (currencies : List Ptr) split =>
      let cur := split.Currency
      let found := currencies.foldl (fun e b => if b = cur then true else e) false
      if found = false then currencies ++ [cur] else currencies)
    []
  (currencies, none)

/-- Method `Ledger.GetAccounts`: the account pointers of the splits, splits in order and
accounts in order within a split, a pointer appended unless the list built so far
already holds an equal pointer; the error is nil. -/
def GetAccounts (txn : Transaction) : List Ptr × Option String :=
  let accounts := txn.Splits.foldl
    (fun (accounts : List Ptr) split =>
      let accs := split.Accounts
      accs.foldl
        (fun (accounts : List Ptr) a =>
          let found := accounts.foldl (fun e b => if b = a then true else e) false
          if found = false then accounts ++ [a] else accounts)
        accounts)
    []
  (accounts, none)

/-- The part of `Ledger.Insert` that precedes the call of `AddTransaction`:
`SafeAddUser` on the poster, `SafeAddCurrency` on each currency of `GetCurrencies`,
then for each account of `GetAccounts` `SafeAddAccount` and
`SafeAddTagToAccount(account.Name, "main")`. -/
def InsertResolve (eng : Engine) (h : Heap) (txn : Transaction) (db : DB) : Run :=
  (SafeAddUser eng (h.user txn.Poster) db).andThen fun db =>
  let currencies := (GetCurrencies txn).1
  (currencies.foldl
    (fun (r : Run) currency => r.andThen (SafeAddCurrency eng (h.currency currency)))
    (.done db)).andThen fun db =>
  let accounts := (GetAccounts txn).1
  accounts.foldl
    (fun (r : Run) account => r.andThen fun db =>
      (SafeAddAccount eng (h.account account) db).andThen
        (SafeAddTagToAccount (h.account account).Name "main"))
    (.done db)

/-- Method `Ledger.Insert`. -/
def Insert (eng : Engine) (h : Heap) (txn : Transaction) (db : DB) : Run :=
  (InsertResolve eng h txn db).andThen fun db => (AddTransaction eng h txn db).result

/-! ## Notions used in the statements and proofs -/

/-- One step of the loops of `GetCurrencies` and `GetAccounts`: append the pointer
unless it is already in the list. -/
def appendNew (l : List Ptr) (x : Ptr) : List Ptr :=
  if x ∈ l then l else l ++ [x]

/-- The pointers the splits reference as currency, in split order. -/
def currencyRefs (txn : Transaction) : List Ptr :=
  txn.Splits.map Split.Currency

/-- The pointers the splits reference as accounts: splits in order, accounts in order
within a split. -/
def accountRefs (txn : Transaction) : List Ptr :=
  txn.Splits.foldr (fun split rest => split.Accounts ++ rest) []

/-- A row of `currencies` carries the name. -/
def hasCurrency (db : DB) (name : String) : Prop :=
  ∃ r ∈ db.currencies, r.name = name

/-- A row of `accounts` carries the code. -/
def hasAccount (db : DB) (code : String) : Prop :=
  ∃ r ∈ db.accounts, r.account_id = code

/-- A row of `users` carries the username. -/
def hasUser (db : DB) (username : String) : Prop :=
  ∃ r ∈ db.users, r.username = username

/-- The number of rows of `accounts` that carry the code. -/
def accountRows (db : DB) (code : String) : Nat :=
  db.accounts.countP (fun r => r.account_id == code)

/-- The row `AddTransaction` binds for a split. -/
def splitRow (h : Heap) (split : Split) : SplitRow :=
  ⟨split.Id, split.Date, split.Description, (h.currency split.Currency).Name, 10, none⟩

/-- The split row as the specification describes it: split id, split date, description,
name of the split's currency, the split's own signed amount, the owning transaction's
id. -/
def specSplitRow (h : Heap) (txn : Transaction) (split : Split) : SplitRow :=
  ⟨split.Id, split.Date, split.Description, (h.currency split.Currency).Name,
    split.Amount, some txn.Id⟩

/-- The balance of the specification: the sum of the signed amounts of the splits of
the transaction whose currency has the given name. -/
def specCurrencySum (h : Heap) (txn : Transaction) (name : String) : Int :=
  ((txn.Splits.filter (fun s => (h.currency s.Currency).Name == name)).map Split.Amount).sum

/-- The state holds the header row of the transaction. -/
def holdsHeader (txn : Transaction) (c : DB) : Prop :=
  headerRow txn ∈ c.transactions

/-- The state holds a row for the split. -/
def holdsSplit (split : Split) (c : DB) : Prop :=
  ∃ r ∈ c.splits, r.split_id = split.Id

/-- The atomic-visibility property of the specification for one state: the header with
a row for every split, or neither the header nor a row of any split. -/
def AtomicallyVisible (txn : Transaction) (c : DB) : Prop :=
  (holdsHeader txn c ∧ ∀ s ∈ txn.Splits, holdsSplit s c) ∨
  (¬ holdsHeader txn c ∧ ∀ s ∈ txn.Splits, ¬ holdsSplit s c)

/-- Every state a call can end in, returning or not, satisfies `I` when it starts
in a state that does. -/
def Preserves (I : DB → Prop) (f : DB → Run) : Prop :=
  ∀ d, I d → I (f d).db

/-- A property of the state that every write of the pipeline keeps: any change of
`users`, `account_tags`, `transactions` or `splits`, an appended currency row, and an
appended account row whose code had no row yet. -/
structure Stable (I : DB → Prop) : Prop where
  users : ∀ d rows, I d → I { d with users := rows }
  tags : ∀ d rows, I d → I { d with account_tags := rows }
  transactions : ∀ d rows, I d → I { d with transactions := rows }
  splits : ∀ d rows, I d → I { d with splits := rows }
  currencies : ∀ d row, I d → I { d with currencies := d.currencies ++ [row] }
  accounts : ∀ d (row : AccountRow), ¬ hasAccount d row.account_id → I d →
    I { d with accounts := d.accounts ++ [row] }

/-! ## Example inputs -/

/-- A heap with users, two separately allocated `USD` currencies (addresses 1 and 2)
and two accounts whose code differs from their name. -/
def exHeap : Heap where
  user := fun _ => ⟨"1", "alice"⟩
  currency := fun p => if p = 3 then ⟨"EUR", 2⟩ else ⟨"USD", 2⟩
  account := fun p => if p = 1 then ⟨"1000", "Cash"⟩ else ⟨"2000", "Sales"⟩

/-- A heap in which the account record at address 1 has code `1000` and another name
than in `exHeap`. -/
def exHeap2 : Heap where
  user := fun _ => ⟨"2", "bob"⟩
  currency := fun _ => ⟨"USD", 2⟩
  account := fun p => if p = 1 then ⟨"1000", "Petty cash"⟩ else ⟨"2000", "Sales"⟩

/-- One split: 100 of the currency at address 1 through the account at address 1. -/
def exSplit1 : Split := ⟨"S1", 0, "sale", [1], 1, 100⟩

/-- A second split, with a separately allocated currency record of the same name. -/
def exSplit2 : Split := ⟨"S2", 0, "sale", [2], 2, -100⟩

/-- A transaction without splits. -/
def exTxn0 : Transaction := ⟨"T0", 0, "empty", 0, []⟩

/-- A transaction with the single split `exSplit1`: unbalanced. -/
def exTxn1 : Transaction := ⟨"T1", 0, "first", 0, [exSplit1]⟩

/-- A balanced transaction with two splits. -/
def exTxn2 : Transaction := ⟨"T2", 0, "second", 0, [exSplit1, exSplit2]⟩

/-- A transaction whose second split carries a separately allocated account record
(address 3) with the same code as the record at address 2. -/
def exTxn3 : Transaction :=
  ⟨"T3", 0, "third", 0, [⟨"S1", 0, "a", [2], 1, 5⟩, ⟨"S2", 0, "b", [3], 1, -5⟩]⟩

/-- A transaction whose splits share their records: one currency record, and the
account record at address 1 referenced by both splits. -/
def exTxn4 : Transaction :=
  ⟨"T4", 0, "fourth", 0, [⟨"S1", 0, "a", [1], 1, 5⟩, ⟨"S2", 0, "b", [1, 2], 1, -5⟩]⟩

/-- A state in which `USD` has 2 decimals, account `1000` is named `Cash` and user
`alice` has id `1`. -/
def exDB : DB :=
  ⟨[⟨"1", "alice"⟩], [⟨"USD", 2⟩], [⟨"1000", "Cash"⟩], [], [], []⟩

/-- The state in which `Ledger.Insert` on `exTxn2`, started on the empty state, calls
`AddTransaction`: poster, currency, both accounts and their tags resolved, no header
and no split row yet. -/
def exResolved2 : DB :=
  ⟨[⟨"1", "alice"⟩], [⟨"USD", 2⟩], [⟨"1000", "Cash"⟩, ⟨"2000", "Sales"⟩],
   [⟨"Cash", "main"⟩, ⟨"Sales", "main"⟩], [], []⟩

/-- An engine that executes the four single-row inserts of the code (header, user,
currency, account) and no other statement: it rejects the split statement, whose text
has no `VALUES` keyword. -/
def exEngine : Engine :=
  ⟨fun st _ => decide (st.sql ∈ [insertTransaction, insertUser, insertCurrency, insertAccount])⟩

/-! ## First-appearance lists: `GetCurrencies`, `GetAccounts` -/

theorem found_loop (x : Ptr) (l : List Ptr) (init : Bool) :
    l.foldl (fun e b => if b = x then true else e) init = (init || decide (x ∈ l)) := by
  induction l generalizing init with
  | nil => simp
  | cons b l ih =>
    simp only [List.foldl_cons, ih, List.mem_cons]
    by_cases hb : b = x
    · subst hb; simp
    · have hx : ¬ x = b := fun e => hb e.symm
      simp [hb, hx]

theorem step_eq_appendNew (l : List Ptr) (x : Ptr) :
    (if l.foldl (fun e b => if b = x then true else e) false = false then l ++ [x] else l)
      = appendNew l x := by
  rw [found_loop]
  unfold appendNew
  by_cases hx : x ∈ l <;> simp [hx]

theorem GetCurrencies_eq (txn : Transaction) :
    GetCurrencies txn = ((currencyRefs txn).foldl appendNew [], none) := by
  unfold GetCurrencies currencyRefs
  simp only [step_eq_appendNew, List.foldl_map]

theorem foldl_accounts_flatten (ss : List Split) (acc : List Ptr) :
    ss.foldl (fun (accounts : List Ptr) split => split.Accounts.foldl appendNew accounts) acc
      = (ss.foldr (fun split rest => split.Accounts ++ rest) []).foldl appendNew acc := by
  induction ss generalizing acc with
  | nil => rfl
  | cons s ss ih => simp only [List.foldl_cons, List.foldr_cons, List.foldl_append, ih]

theorem GetAccounts_eq (txn : Transaction) :
    GetAccounts txn = ((accountRefs txn).foldl appendNew [], none) := by
  unfold GetAccounts accountRefs
  simp only [step_eq_appendNew]
  congr 1
  exact foldl_accounts_flatten txn.Splits []

theorem mem_foldl_appendNew (l acc : List Ptr) (x : Ptr) :
    x ∈ l.foldl appendNew acc ↔ x ∈ acc ∨ x ∈ l := by
  induction l generalizing acc with
  | nil => simp
  | cons y l ih =>
    rw [List.foldl_cons, ih]
    unfold appendNew
    by_cases hy : y ∈ acc
    · simp only [hy, if_true, List.mem_cons]
      constructor
      · rintro (h | h)
        · exact Or.inl h
        · exact Or.inr (Or.inr h)
      · rintro (h | h | h)
        · exact Or.inl h
        · exact Or.inl (h ▸ hy)
        · exact Or.inr h
    · simp only [hy, if_false, List.mem_append, List.mem_singleton, List.mem_cons]
      tauto

theorem nodup_foldl_appendNew (l acc : List Ptr) (hacc : acc.Nodup) :
    (l.foldl appendNew acc).Nodup := by
  induction l generalizing acc with
  | nil => simpa using hacc
  | cons y l ih =>
    rw [List.foldl_cons]
    apply ih
    unfold appendNew
    by_cases hy : y ∈ acc
    · simpa [hy] using hacc
    · simp only [hy, if_false]
      exact List.Nodup.append hacc (List.nodup_singleton y) (by simpa using hy)

theorem indexOf_lt_shift (acc l : List Ptr) (y a b : Ptr) (hy : y ∈ acc) :
    (List.indexOf a (acc ++ l) < List.indexOf b (acc ++ l) ↔
      List.indexOf a (acc ++ y :: l) < List.indexOf b (acc ++ y :: l)) := by
  by_cases ha : a ∈ acc <;> by_cases hb : b ∈ acc
  · simp [List.indexOf_append_of_mem, ha, hb]
  · have hby : y ≠ b := fun e => hb (e ▸ hy)
    have := List.indexOf_lt_length.2 ha
    simp only [List.indexOf_append_of_mem ha, List.indexOf_append_of_not_mem hb,
      List.indexOf_cons_ne _ hby]
    omega
  · have hay : y ≠ a := fun e => ha (e ▸ hy)
    have := List.indexOf_lt_length.2 hb
    simp only [List.indexOf_append_of_mem hb, List.indexOf_append_of_not_mem ha,
      List.indexOf_cons_ne _ hay]
    omega
  · have hay : y ≠ a := fun e => ha (e ▸ hy)
    have hby : y ≠ b := fun e => hb (e ▸ hy)
    simp only [List.indexOf_append_of_not_mem ha, List.indexOf_append_of_not_mem hb,
      List.indexOf_cons_ne _ hay, List.indexOf_cons_ne _ hby]
    omega

theorem order_foldl_appendNew (l acc : List Ptr) (a b : Ptr) :
    (List.indexOf a (l.foldl appendNew acc) < List.indexOf b (l.foldl appendNew acc) ↔
      List.indexOf a (acc ++ l) < List.indexOf b (acc ++ l)) := by
  induction l generalizing acc with
  | nil => simp
  | cons y l ih =>
    rw [List.foldl_cons, ih]
    unfold appendNew
    by_cases hy : y ∈ acc
    · simp only [hy, if_true]
      exact indexOf_lt_shift acc l y a b hy
    · simp only [hy, if_false, List.append_assoc, List.singleton_append]

theorem mem_currencyRefs (txn : Transaction) (p : Ptr) :
    p ∈ currencyRefs txn ↔ ∃ s ∈ txn.Splits, s.Currency = p := by
  simp [currencyRefs]

theorem mem_accountRefs (txn : Transaction) (p : Ptr) :
    p ∈ accountRefs txn ↔ ∃ s ∈ txn.Splits, p ∈ s.Accounts := by
  unfold accountRefs
  induction txn.Splits with
  | nil => simp
  | cons s ss ih => simp [ih]

/-! ## Lookups and resolve-or-create -/

theorem FindCurrency_isSome (db : DB) (name : String) :
    (FindCurrency db name).isSome = true ↔ hasCurrency db name := by
  simp [FindCurrency, hasCurrency]

theorem FindAccount_isSome (db : DB) (code : String) :
    (FindAccount db code).isSome = true ↔ hasAccount db code := by
  simp [FindAccount, hasAccount]

theorem FindUser_isSome (db : DB) (name : String) :
    (FindUser db name).isSome = true ↔ hasUser db name := by
  simp [FindUser, hasUser]

theorem SafeAddCurrency_present (eng : Engine) (cur : Currency) (db : DB)
    (hp : hasCurrency db cur.Name) : SafeAddCurrency eng cur db = .done db := by
  have hf := (FindCurrency_isSome db cur.Name).2 hp
  unfold SafeAddCurrency
  cases hc : FindCurrency db cur.Name with
  | none => simp [hc] at hf
  | some u => rfl

theorem SafeAddAccount_present (eng : Engine) (acc : Account) (db : DB)
    (hp : hasAccount db acc.Code) : SafeAddAccount eng acc db = .done db := by
  have hf := (FindAccount_isSome db acc.Code).2 hp
  unfold SafeAddAccount
  cases hc : FindAccount db acc.Code with
  | none => simp [hc] at hf
  | some u => rfl

theorem SafeAddUser_present (eng : Engine) (usr : User) (db : DB)
    (hp : hasUser db usr.Name) : SafeAddUser eng usr db = .done db := by
  have hf := (FindUser_isSome db usr.Name).2 hp
  unfold SafeAddUser
  cases hc : FindUser db usr.Name with
  | none => simp [hc] at hf
  | some u => rfl

theorem SafeAddCurrency_absent (eng : Engine) (cur : Currency) (db : DB)
    (hp : ¬ hasCurrency db cur.Name) : SafeAddCurrency eng cur db = AddCurrency eng cur db := by
  have hf := (FindCurrency_isSome db cur.Name).not.2 hp
  unfold SafeAddCurrency
  cases hc : FindCurrency db cur.Name with
  | none => rfl
  | some u => simp [hc] at hf

theorem SafeAddAccount_absent (eng : Engine) (acc : Account) (db : DB)
    (hp : ¬ hasAccount db acc.Code) : SafeAddAccount eng acc db = AddAccount eng acc db := by
  have hf := (FindAccount_isSome db acc.Code).not.2 hp
  unfold SafeAddAccount
  cases hc : FindAccount db acc.Code with
  | none => rfl
  | some u => simp [hc] at hf

theorem SafeAddUser_absent (eng : Engine) (usr : User) (db : DB)
    (hp : ¬ hasUser db usr.Name) : SafeAddUser eng usr db = AddUser eng usr db := by
  have hf := (FindUser_isSome db usr.Name).not.2 hp
  unfold SafeAddUser
  cases hc : FindUser db usr.Name with
  | none => rfl
  | some u => simp [hc] at hf

/-! ## Claims on `GetCurrencies` and `GetAccounts` -/

/-- C9, as stated, fails: two splits that carry separately allocated records with equal
keys (currency `USD` at addresses 1 and 2; account `2000` at addresses 2 and 3) make
`GetCurrencies` return two entries named `USD` and `GetAccounts` two entries with code
`2000`. -/
theorem C9_counterexample :
    ¬ (((GetCurrencies exTxn2).1.map (fun p => (exHeap.currency p).Name)).Nodup) ∧
    ¬ (((GetAccounts exTxn3).1.map (fun p => (exHeap.account p).Code)).Nodup) := by
  decide

/-- C9, amended: when splits that carry equal keys carry the same record (no two
separately allocated records with equal keys), the list returned by `GetCurrencies` has
no two entries with the same currency name and the list returned by `GetAccounts` has no
two entries with the same account code. -/
theorem C9_distinct_keys_once (h : Heap) (txn : Transaction)
    (hcur : ∀ p ∈ currencyRefs txn, ∀ q ∈ currencyRefs txn,
      (h.currency p).Name = (h.currency q).Name → p = q)
    (hacc : ∀ p ∈ accountRefs txn, ∀ q ∈ accountRefs txn,
      (h.account p).Code = (h.account q).Code → p = q) :
    ((GetCurrencies txn).1.map (fun p => (h.currency p).Name)).Nodup ∧
    ((GetAccounts txn).1.map (fun p => (h.account p).Code)).Nodup := by
  rw [GetCurrencies_eq, GetAccounts_eq]
  constructor
  · refine List.Nodup.map_on ?_ (nodup_foldl_appendNew _ _ List.nodup_nil)
    intro p hp q hq hpq
    have hp1 := (mem_foldl_appendNew _ _ _).1 hp
    have hq1 := (mem_foldl_appendNew _ _ _).1 hq
    simp only [List.not_mem_nil, false_or] at hp1 hq1
    exact hcur p hp1 q hq1 hpq
  · refine List.Nodup.map_on ?_ (nodup_foldl_appendNew _ _ List.nodup_nil)
    intro p hp q hq hpq
    have hp1 := (mem_foldl_appendNew _ _ _).1 hp
    have hq1 := (mem_foldl_appendNew _ _ _).1 hq
    simp only [List.not_mem_nil, false_or] at hp1 hq1
    exact hacc p hp1 q hq1 hpq

/-- Witness of C9 amended: `exTxn4`, whose splits share one currency record and the
account records at addresses 1 and 2. -/
theorem C9_distinct_keys_once_witness :
    ((GetCurrencies exTxn4).1.map (fun p => (exHeap.currency p).Name)).Nodup ∧
    ((GetAccounts exTxn4).1.map (fun p => (exHeap.account p).Code)).Nodup :=
  C9_distinct_keys_once exHeap exTxn4 (by decide) (by decide)

/-- C10: `GetCurrencies` and `GetAccounts` return exactly the records (pointers) the
splits reference, each once, in order of first appearance, with a nil error: a pointer
is in the result iff some split references it, and one entry precedes another in the
result iff its first occurrence in the sequence of references (splits in order, accounts
in order within a split) comes first. -/
theorem C10_first_appearance (txn : Transaction) :
    ((∀ p, p ∈ (GetCurrencies txn).1 ↔ ∃ s ∈ txn.Splits, s.Currency = p) ∧
     (GetCurrencies txn).1.Nodup ∧
     (∀ a ∈ (GetCurrencies txn).1, ∀ b ∈ (GetCurrencies txn).1,
        (List.indexOf a (GetCurrencies txn).1 < List.indexOf b (GetCurrencies txn).1 ↔
          List.indexOf a (currencyRefs txn) < List.indexOf b (currencyRefs txn))) ∧
     (GetCurrencies txn).2 = none) ∧
    ((∀ p, p ∈ (GetAccounts txn).1 ↔ ∃ s ∈ txn.Splits, p ∈ s.Accounts) ∧
     (GetAccounts txn).1.Nodup ∧
     (∀ a ∈ (GetAccounts txn).1, ∀ b ∈ (GetAccounts txn).1,
        (List.indexOf a (GetAccounts txn).1 < List.indexOf b (GetAccounts txn).1 ↔
          List.indexOf a (accountRefs txn) < List.indexOf b (accountRefs txn))) ∧
     (GetAccounts txn).2 = none) := by
  rw [GetCurrencies_eq, GetAccounts_eq]
  refine ⟨⟨?_, nodup_foldl_appendNew _ _ List.nodup_nil, ?_, rfl⟩,
    ⟨?_, nodup_foldl_appendNew _ _ List.nodup_nil, ?_, rfl⟩⟩
  · intro p
    rw [← mem_currencyRefs]
    simp [mem_foldl_appendNew]
  · intro a _ b _
    simpa using order_foldl_appendNew (currencyRefs txn) [] a b
  · intro p
    rw [← mem_accountRefs]
    simp [mem_foldl_appendNew]
  · intro a _ b _
    simpa using order_foldl_appendNew (accountRefs txn) [] a b

/-! ## Claims on resolve-or-create -/

/-- C3: when the natural key of the request is already present (currency name for
`SafeAddCurrency`, account code for `SafeAddAccount`, username for `SafeAddUser`), the
operation returns nil and the storage state is unchanged: no row is added and the stored
record keeps its fields, whatever non-key fields the request carries. -/
theorem C3_present_key_unchanged (eng : Engine) (db : DB) (cur : Currency) (acc : Account)
    (usr : User) :
    ((∃ r ∈ db.currencies, r.name = cur.Name) → SafeAddCurrency eng cur db = .done db) ∧
    ((∃ r ∈ db.accounts, r.account_id = acc.Code) → SafeAddAccount eng acc db = .done db) ∧
    ((∃ r ∈ db.users, r.username = usr.Name) → SafeAddUser eng usr db = .done db) :=
  ⟨SafeAddCurrency_present eng cur db, SafeAddAccount_present eng acc db,
    SafeAddUser_present eng usr db⟩

/-- Witness of C3: requests for `USD`, account `1000` and user `alice` with other
decimals, name and id than the stored ones leave `exDB` as it is. -/
theorem C3_present_key_unchanged_witness :
    SafeAddCurrency Engine.reliable ⟨"USD", 8⟩ exDB = .done exDB ∧
    SafeAddAccount Engine.reliable ⟨"1000", "Bank"⟩ exDB = .done exDB ∧
    SafeAddUser Engine.reliable ⟨"7", "alice"⟩ exDB = .done exDB :=
  ⟨(C3_present_key_unchanged Engine.reliable exDB ⟨"USD", 8⟩ ⟨"1000", "Bank"⟩ ⟨"7", "alice"⟩).1
      ⟨⟨"USD", 2⟩, by decide, by decide⟩,
   (C3_present_key_unchanged Engine.reliable exDB ⟨"USD", 8⟩ ⟨"1000", "Bank"⟩ ⟨"7", "alice"⟩).2.1
      ⟨⟨"1000", "Cash"⟩, by decide, by decide⟩,
   (C3_present_key_unchanged Engine.reliable exDB ⟨"USD", 8⟩ ⟨"1000", "Bank"⟩ ⟨"7", "alice"⟩).2.2
      ⟨⟨"1", "alice"⟩, by decide, by decide⟩⟩

/-! ## Runs: sequencing and loops -/

theorem Run.done_andThen (d : DB) (f : DB → Run) : (Run.done d).andThen f = f d := rfl

theorem Run.andThen_db (I : DB → Prop) (r : Run) (f : DB → Run) (hr : I r.db)
    (hf : Preserves I f) : I (r.andThen f).db := by
  cases r with
  | done d => exact hf d hr
  | fatal d => exact hr

theorem Run.andThen_eq_done (r : Run) (f : DB → Run) (d' : DB)
    (hd : r.andThen f = .done d') : ∃ d, r = .done d ∧ f d = .done d' := by
  cases r with
  | done d => exact ⟨d, rfl, hd⟩
  | fatal d => simp [Run.andThen] at hd

theorem Preserves.andThen (I : DB → Prop) (f g : DB → Run) (hf : Preserves I f)
    (hg : Preserves I g) : Preserves I (fun d => (f d).andThen g) :=
  fun d hd => Run.andThen_db I (f d) g (hf d hd) hg

theorem foldl_fatal {α : Type} (step : α → DB → Run) (l : List α) (d : DB) :
    l.foldl (fun (r : Run) a => r.andThen (step a)) (.fatal d) = .fatal d := by
  induction l with
  | nil => rfl
  | cons a l ih =>
    rw [List.foldl_cons, show (Run.fatal d).andThen (step a) = .fatal d from rfl]
    exact ih

theorem foldl_preserves {α : Type} (step : α → DB → Run) (I : DB → Prop)
    (hstep : ∀ a, Preserves I (step a)) (l : List α) (r : Run) (hr : I r.db) :
    I (l.foldl (fun (r : Run) a => r.andThen (step a)) r).db := by
  induction l generalizing r with
  | nil => exact hr
  | cons a l ih =>
    rw [List.foldl_cons]
    exact ih _ (Run.andThen_db I r (step a) hr (hstep a))

theorem foldl_establish {α : Type} (step : α → DB → Run) (I Q : DB → Prop)
    (hI : ∀ b, Preserves I (step b)) (hQ : ∀ b, Preserves (fun d => I d ∧ Q d) (step b))
    (a : α) (hest : ∀ d d', I d → step a d = .done d' → Q d') :
    ∀ (l : List α) (db db' : DB), I db → a ∈ l →
      l.foldl (fun (r : Run) a => r.andThen (step a)) (.done db) = .done db' → Q db' := by
  intro l
  induction l with
  | nil => intro db db' _ ha; simp at ha
  | cons b l ih =>
    intro db db' hdb ha hrun
    rw [List.foldl_cons] at hrun
    have hstepI : I (step b db).db := hI b db hdb
    cases hs : step b db with
    | fatal d1 =>
      rw [show (Run.done db).andThen (step b) = step b db from rfl, hs, foldl_fatal] at hrun
      cases hrun
    | done d1 =>
      rw [show (Run.done db).andThen (step b) = step b db from rfl, hs] at hrun
      rw [hs] at hstepI
      rcases List.mem_cons.1 ha with hab | hal
      · subst hab
        have hq : Q d1 := hest db d1 hdb hs
        have := foldl_preserves step (fun d => I d ∧ Q d) hQ l (.done d1) ⟨hstepI, hq⟩
        rw [hrun] at this
        exact this.2
      · exact ih d1 db' hstepI hal hrun

theorem foldl_total {α : Type} (step : α → DB → Run) (I : DB → Prop)
    (hstep : ∀ a d, I d → ∃ d', step a d = .done d' ∧ I d') :
    ∀ (l : List α) (d : DB), I d →
      ∃ d', l.foldl (fun (r : Run) a => r.andThen (step a)) (.done d) = .done d' ∧ I d' := by
  intro l
  induction l with
  | nil => intro d hd; exact ⟨d, rfl, hd⟩
  | cons a l ih =>
    intro d hd
    obtain ⟨d1, h1, hI1⟩ := hstep a d hd
    obtain ⟨d2, h2, hI2⟩ := ih d1 hI1
    refine ⟨d2, ?_, hI2⟩
    rw [List.foldl_cons, show (Run.done d).andThen (step a) = step a d from rfl, h1]
    exact h2

/-! ## What each database call can leave behind -/

theorem SafeAddUser_db (eng : Engine) (usr : User) (db : DB) :
    (SafeAddUser eng usr db).db = db ∨
    (SafeAddUser eng usr db).db = { db with users := db.users ++ [⟨usr.Id, usr.Name⟩] } := by
  unfold SafeAddUser AddUser
  cases FindUser db usr.Name with
  | some u => exact Or.inl rfl
  | none =>
    by_cases he : eng.accepts ⟨insertUser, [.text usr.Id, .text usr.Name]⟩ db = true
    · right; simp [he, Run.db]
    · left; simp [he, Run.db]

theorem SafeAddCurrency_db (eng : Engine) (cur : Currency) (db : DB) :
    (SafeAddCurrency eng cur db).db = db ∨
    (SafeAddCurrency eng cur db).db =
      { db with currencies := db.currencies ++ [⟨cur.Name, cur.Decimals⟩] } := by
  unfold SafeAddCurrency AddCurrency
  cases FindCurrency db cur.Name with
  | some u => exact Or.inl rfl
  | none =>
    by_cases he : eng.accepts ⟨insertCurrency, [.text cur.Name, .int cur.Decimals]⟩ db = true
    · right; simp [he, Run.db]
    · left; simp [he, Run.db]

theorem SafeAddAccount_db (eng : Engine) (acc : Account) (db : DB) :
    (SafeAddAccount eng acc db).db = db ∨
    (¬ hasAccount db acc.Code ∧
      (SafeAddAccount eng acc db).db =
        { db with accounts := db.accounts ++ [⟨acc.Code, acc.Name⟩] }) := by
  by_cases hp : hasAccount db acc.Code
  · left; rw [SafeAddAccount_present eng acc db hp]; rfl
  · rw [SafeAddAccount_absent eng acc db hp]
    unfold AddAccount
    by_cases he : eng.accepts ⟨insertAccount, [.text acc.Code, .text acc.Name]⟩ db = true
    · right; exact ⟨hp, by simp [he, Run.db]⟩
    · left; simp [he, Run.db]

theorem SafeAddTagToAccount_db (account tag : String) (db : DB) :
    (SafeAddTagToAccount account tag db).db = db ∨
    (SafeAddTagToAccount account tag db).db =
      { db with account_tags := db.account_tags ++ [⟨account, tag⟩] } := by
  unfold SafeAddTagToAccount
  by_cases hm : (⟨account, tag⟩ : TagRow) ∈ db.account_tags
  · left; simp [hm, Run.db]
  · right; simp [hm, Run.db]

theorem AddTransaction_db (eng : Engine) (h : Heap) (txn : Transaction) (db : DB) :
    (AddTransaction eng h txn db).result.db = db ∨
    (AddTransaction eng h txn db).result.db =
      { db with transactions := db.transactions ++ [headerRow txn] } ∨
    (AddTransaction eng h txn db).result.db =
      { db with transactions := db.transactions ++ [headerRow txn],
                splits := db.splits ++ rowsOfVals (splitVals h txn) } := by
  unfold AddTransaction
  by_cases h1 : eng.accepts (headerStatement txn) db = true
  · by_cases h2 : eng.accepts (splitStatement h txn)
        { db with transactions := db.transactions ++ [headerRow txn] } = true
    · right; right; simp [h1, h2, Run.db]
    · right; left; simp [h1, h2, Run.db]
  · left; simp [h1, Run.db]

theorem Stable.keeps_SafeAddUser {I : DB → Prop} (hI : Stable I) (eng : Engine) (usr : User) :
    Preserves I (SafeAddUser eng usr) := by
  intro d hd
  rcases SafeAddUser_db eng usr d with e | e <;> rw [e]
  · exact hd
  · exact hI.users d _ hd

theorem Stable.keeps_SafeAddCurrency {I : DB → Prop} (hI : Stable I) (eng : Engine)
    (cur : Currency) : Preserves I (SafeAddCurrency eng cur) := by
  intro d hd
  rcases SafeAddCurrency_db eng cur d with e | e <;> rw [e]
  · exact hd
  · exact hI.currencies d _ hd

theorem Stable.keeps_SafeAddAccount {I : DB → Prop} (hI : Stable I) (eng : Engine)
    (acc : Account) : Preserves I (SafeAddAccount eng acc) := by
  intro d hd
  rcases SafeAddAccount_db eng acc d with e | ⟨hn, e⟩ <;> rw [e]
  · exact hd
  · exact hI.accounts d ⟨acc.Code, acc.Name⟩ hn hd

theorem Stable.keeps_SafeAddTagToAccount {I : DB → Prop} (hI : Stable I) (account tag : String) :
    Preserves I (SafeAddTagToAccount account tag) := by
  intro d hd
  rcases SafeAddTagToAccount_db account tag d with e | e <;> rw [e]
  · exact hd
  · exact hI.tags d _ hd

theorem Stable.keeps_AddTransaction {I : DB → Prop} (hI : Stable I) (eng : Engine) (h : Heap)
    (txn : Transaction) : Preserves I (fun d => (AddTransaction eng h txn d).result) := by
  intro d hd
  rcases AddTransaction_db eng h txn d with e | e | e <;> simp only [e]
  · exact hd
  · exact hI.transactions d _ hd
  · exact hI.splits { d with transactions := d.transactions ++ [headerRow txn] } _
      (hI.transactions d _ hd)

theorem Stable.keeps_accountStep {I : DB → Prop} (hI : Stable I) (eng : Engine) (h : Heap)
    (account : Ptr) :
    Preserves I (fun db => (SafeAddAccount eng (h.account account) db).andThen
      (SafeAddTagToAccount (h.account account).Name "main")) :=
  Preserves.andThen I _ _ (hI.keeps_SafeAddAccount eng _) (hI.keeps_SafeAddTagToAccount _ _)

theorem Stable.keeps_InsertResolve {I : DB → Prop} (hI : Stable I) (eng : Engine) (h : Heap)
    (txn : Transaction) : Preserves I (InsertResolve eng h txn) := by
  intro d hd
  unfold InsertResolve
  apply Run.andThen_db I _ _ (hI.keeps_SafeAddUser eng _ d hd)
  intro d1 hd1
  apply Run.andThen_db I
  · exact foldl_preserves (fun p => SafeAddCurrency eng (h.currency p)) I
      (fun p => hI.keeps_SafeAddCurrency eng _) _ (.done d1) hd1
  · intro d2 hd2
    exact foldl_preserves _ I (fun p => hI.keeps_accountStep eng h p) _ (.done d2) hd2

theorem Stable.keeps_Insert {I : DB → Prop} (hI : Stable I) (eng : Engine) (h : Heap)
    (txn : Transaction) : Preserves I (Insert eng h txn) := by
  intro d hd
  unfold Insert
  exact Run.andThen_db I _ _ (hI.keeps_InsertResolve eng h txn d hd) (hI.keeps_AddTransaction eng h txn)

theorem Stable.and {I Q : DB → Prop} (hI : Stable I) (hQ : Stable Q) :
    Stable (fun d => I d ∧ Q d) where
  users := fun d rows hd => ⟨hI.users d rows hd.1, hQ.users d rows hd.2⟩
  tags := fun d rows hd => ⟨hI.tags d rows hd.1, hQ.tags d rows hd.2⟩
  transactions := fun d rows hd => ⟨hI.transactions d rows hd.1, hQ.transactions d rows hd.2⟩
  splits := fun d rows hd => ⟨hI.splits d rows hd.1, hQ.splits d rows hd.2⟩
  currencies := fun d row hd => ⟨hI.currencies d row hd.1, hQ.currencies d row hd.2⟩
  accounts := fun d row hn hd => ⟨hI.accounts d row hn hd.1, hQ.accounts d row hn hd.2⟩

theorem stable_true : Stable (fun _ => True) where
  users := fun _ _ _ => trivial
  tags := fun _ _ _ => trivial
  transactions := fun _ _ _ => trivial
  splits := fun _ _ _ => trivial
  currencies := fun _ _ _ => trivial
  accounts := fun _ _ _ _ => trivial

theorem stable_hasCurrency (name : String) : Stable (fun d => hasCurrency d name) where
  users := fun _ _ hd => hd
  tags := fun _ _ hd => hd
  transactions := fun _ _ hd => hd
  splits := fun _ _ hd => hd
  currencies := fun d row hd => by
    obtain ⟨r, hr, hn⟩ := hd
    exact ⟨r, List.mem_append_left _ hr, hn⟩
  accounts := fun _ _ _ hd => hd

theorem stable_hasAccount (code : String) : Stable (fun d => hasAccount d code) where
  users := fun _ _ hd => hd
  tags := fun _ _ hd => hd
  transactions := fun _ _ hd => hd
  splits := fun _ _ hd => hd
  currencies := fun _ _ hd => hd
  accounts := fun d row _ hd => by
    obtain ⟨r, hr, hn⟩ := hd
    exact ⟨r, List.mem_append_left _ hr, hn⟩

theorem accountRows_pos (db : DB) (code : String) :
    0 < accountRows db code ↔ hasAccount db code := by
  simp [accountRows, hasAccount, List.countP_pos_iff]

theorem accountRows_append (db : DB) (row : AccountRow) (code : String) :
    accountRows { db with accounts := db.accounts ++ [row] } code =
      accountRows db code + (if row.account_id = code then 1 else 0) := by
  unfold accountRows
  by_cases hc : row.account_id = code <;> simp [List.countP_append, List.countP_cons, hc]

theorem stable_accountRows_le (code : String) :
    Stable (fun d => accountRows d code ≤ 1) where
  users := fun _ _ hd => hd
  tags := fun _ _ hd => hd
  transactions := fun _ _ hd => hd
  splits := fun _ _ hd => hd
  currencies := fun _ _ hd => hd
  accounts := fun d row hn hd => by
    show accountRows { d with accounts := d.accounts ++ [row] } code ≤ 1
    rw [accountRows_append]
    by_cases hc : row.account_id = code
    · have h0 : ¬ 0 < accountRows d code := fun hp =>
        hn (hc ▸ (accountRows_pos d code).1 hp)
      simp only [hc, if_true]
      omega
    · simp only [hc, if_false]
      omega

theorem stable_accountRows_one (code : String) :
    Stable (fun d => accountRows d code = 1) where
  users := fun _ _ hd => hd
  tags := fun _ _ hd => hd
  transactions := fun _ _ hd => hd
  splits := fun _ _ hd => hd
  currencies := fun _ _ hd => hd
  accounts := fun d row hn hd => by
    show accountRows { d with accounts := d.accounts ++ [row] } code = 1
    rw [accountRows_append]
    by_cases hc : row.account_id = code
    · exact absurd (hc ▸ (accountRows_pos d code).1 (by omega)) hn
    · simp only [hc, if_false]
      omega

theorem SafeAddCurrency_done_has (eng : Engine) (cur : Currency) (d d' : DB)
    (hd : SafeAddCurrency eng cur d = .done d') : hasCurrency d' cur.Name := by
  by_cases hp : hasCurrency d cur.Name
  · rw [SafeAddCurrency_present eng cur d hp] at hd
    cases hd
    exact hp
  · rw [SafeAddCurrency_absent eng cur d hp] at hd
    unfold AddCurrency at hd
    split at hd
    · cases hd
      exact ⟨⟨cur.Name, cur.Decimals⟩, by simp, rfl⟩
    · cases hd

theorem SafeAddAccount_done_has (eng : Engine) (acc : Account) (d d' : DB)
    (hd : SafeAddAccount eng acc d = .done d') : hasAccount d' acc.Code := by
  by_cases hp : hasAccount d acc.Code
  · rw [SafeAddAccount_present eng acc d hp] at hd
    cases hd
    exact hp
  · rw [SafeAddAccount_absent eng acc d hp] at hd
    unfold AddAccount at hd
    split at hd
    · cases hd
      exact ⟨⟨acc.Code, acc.Name⟩, by simp, rfl⟩
    · cases hd

theorem accountStep_done_has (eng : Engine) (h : Heap) (a : Ptr) (d d' : DB)
    (hd : (SafeAddAccount eng (h.account a) d).andThen
      (SafeAddTagToAccount (h.account a).Name "main") = .done d') :
    hasAccount d' (h.account a).Code := by
  obtain ⟨d1, h1, h2⟩ := Run.andThen_eq_done _ _ _ hd
  have := (stable_hasAccount (h.account a).Code).keeps_SafeAddTagToAccount
    (h.account a).Name "main" d1 (SafeAddAccount_done_has eng _ d d1 h1)
  rw [h2] at this
  exact this

theorem mem_GetCurrencies (txn : Transaction) (p : Ptr) :
    p ∈ (GetCurrencies txn).1 ↔ ∃ s ∈ txn.Splits, s.Currency = p := by
  rw [GetCurrencies_eq, ← mem_currencyRefs]
  simp [mem_foldl_appendNew]

theorem mem_GetAccounts (txn : Transaction) (p : Ptr) :
    p ∈ (GetAccounts txn).1 ↔ ∃ s ∈ txn.Splits, p ∈ s.Accounts := by
  rw [GetAccounts_eq, ← mem_accountRefs]
  simp [mem_foldl_appendNew]

/-- The three stages of `InsertResolve`, when it returns. -/
theorem InsertResolve_done (eng : Engine) (h : Heap) (txn : Transaction) (db db' : DB)
    (hr : InsertResolve eng h txn db = .done db') :
    ∃ d0 d1, SafeAddUser eng (h.user txn.Poster) db = .done d0 ∧
      (GetCurrencies txn).1.foldl
        (fun (r : Run) p => r.andThen (SafeAddCurrency eng (h.currency p))) (.done d0)
          = .done d1 ∧
      (GetAccounts txn).1.foldl
        (fun (r : Run) a => r.andThen fun db =>
          (SafeAddAccount eng (h.account a) db).andThen
            (SafeAddTagToAccount (h.account a).Name "main")) (.done d1) = .done db' := by
  unfold InsertResolve at hr
  obtain ⟨d0, h0, hr⟩ := Run.andThen_eq_done _ _ _ hr
  obtain ⟨d1, h1, hr⟩ := Run.andThen_eq_done _ _ _ hr
  exact ⟨d0, d1, h0, h1, hr⟩

/-! ## Claims on `Ledger.Insert` -/

/-- C4: when the calls of `Ledger.Insert` that precede `AddTransaction` have returned,
in state `db'`, `Ledger.Insert` calls `AddTransaction` on that state `db'` (its outcome
is the outcome of that call), and at that point the currency name of every split is
present in the `currencies` table and the code of every account of every split is
present in the `accounts` table. -/
theorem C4_references_exist_before_write (eng : Engine) (h : Heap) (txn : Transaction)
    (db db' : DB) (hr : InsertResolve eng h txn db = .done db') :
    Insert eng h txn db = (AddTransaction eng h txn db').result ∧
    (∀ s ∈ txn.Splits, ∃ r ∈ db'.currencies, r.name = (h.currency s.Currency).Name) ∧
    (∀ s ∈ txn.Splits, ∀ a ∈ s.Accounts,
      ∃ r ∈ db'.accounts, r.account_id = (h.account a).Code) := by
  obtain ⟨d0, d1, _, h1, h2⟩ := InsertResolve_done eng h txn db db' hr
  refine ⟨?_, ?_, ?_⟩
  · unfold Insert
    rw [hr]
    rfl
  · intro s hs
    have hmem : s.Currency ∈ (GetCurrencies txn).1 :=
      (mem_GetCurrencies txn _).2 ⟨s, hs, rfl⟩
    have hq : hasCurrency d1 (h.currency s.Currency).Name :=
      foldl_establish (fun p => SafeAddCurrency eng (h.currency p)) (fun _ => True)
        (fun d => hasCurrency d (h.currency s.Currency).Name)
        (fun p => stable_true.keeps_SafeAddCurrency eng _)
        (fun p => (stable_true.and (stable_hasCurrency _)).keeps_SafeAddCurrency eng _)
        s.Currency (fun d d' _ hd => SafeAddCurrency_done_has eng _ d d' hd)
        _ d0 d1 trivial hmem h1
    have := foldl_preserves _ (fun d => hasCurrency d (h.currency s.Currency).Name)
      (fun p => (stable_hasCurrency _).keeps_accountStep eng h p) (GetAccounts txn).1
      (.done d1) hq
    rw [h2] at this
    exact this
  · intro s hs a ha
    have hmem : a ∈ (GetAccounts txn).1 := (mem_GetAccounts txn _).2 ⟨s, hs, ha⟩
    exact foldl_establish
      (fun p db => (SafeAddAccount eng (h.account p) db).andThen
        (SafeAddTagToAccount (h.account p).Name "main"))
      (fun _ => True) (fun d => hasAccount d (h.account a).Code)
      (fun p => stable_true.keeps_accountStep eng h p)
      (fun p => (stable_true.and (stable_hasAccount _)).keeps_accountStep eng h p)
      a (fun d d' _ hd => accountStep_done_has eng h a d d' hd)
      _ d1 db' trivial hmem h2

/-- Witness of C4: the two-split transaction `exTxn2` on the empty state, with an engine
that rejects the split statement: `Ledger.Insert` calls `AddTransaction` on `exResolved2`,
where `USD` and the accounts `1000` and `2000` have their rows. -/
theorem C4_references_exist_before_write_witness :
    Insert exEngine exHeap exTxn2 DB.empty =
      (AddTransaction exEngine exHeap exTxn2 exResolved2).result ∧
    (∀ s ∈ exTxn2.Splits, ∃ r ∈ exResolved2.currencies,
      r.name = (exHeap.currency s.Currency).Name) ∧
    (∀ s ∈ exTxn2.Splits, ∀ a ∈ s.Accounts,
      ∃ r ∈ exResolved2.accounts, r.account_id = (exHeap.account a).Code) :=
  C4_references_exist_before_write exEngine exHeap exTxn2 DB.empty exResolved2 (by decide)

/-- C2: from a state without an account row of code `C`, `Ledger.Insert` on a first
transaction and then, on the state the first run leaves, on a second transaction, both
with a split referencing an account of code `C`, leaves exactly one row of code `C` in
the `accounts` table.  The first run is one that gets through its resolve-or-create
calls (no `log.Fatal` before `AddTransaction`); the second may end anywhere. -/
theorem C2_one_account_row (eng : Engine) (h1 h2 : Heap) (t1 t2 : Transaction) (db d1 : DB)
    (C : String) (hno : ∀ r ∈ db.accounts, r.account_id ≠ C)
    (hc1 : ∃ s ∈ t1.Splits, ∃ a ∈ s.Accounts, (h1.account a).Code = C)
    (_hc2 : ∃ s ∈ t2.Splits, ∃ a ∈ s.Accounts, (h2.account a).Code = C)
    (hr : InsertResolve eng h1 t1 db = .done d1) :
    accountRows (Insert eng h2 t2 (Insert eng h1 t1 db).db).db C = 1 := by
  have h0 : accountRows db C ≤ 1 := by
    have : ¬ 0 < accountRows db C := fun hp => by
      obtain ⟨r, hr, hrc⟩ := (accountRows_pos db C).1 hp
      exact hno r hr hrc
    omega
  obtain ⟨e0, e1, hu, hcs, has⟩ := InsertResolve_done eng h1 t1 db d1 hr
  have hle0 : accountRows e0 C ≤ 1 := by
    have := (stable_accountRows_le C).keeps_SafeAddUser eng (h1.user t1.Poster) db h0
    rw [hu] at this
    exact this
  have hle1 : accountRows e1 C ≤ 1 := by
    have := foldl_preserves (fun p => SafeAddCurrency eng (h1.currency p))
      (fun d => accountRows d C ≤ 1)
      (fun p => (stable_accountRows_le C).keeps_SafeAddCurrency eng _) (GetCurrencies t1).1
      (.done e0) hle0
    rw [hcs] at this
    exact this
  obtain ⟨s, hs, a, ha, hac⟩ := hc1
  have hmem : a ∈ (GetAccounts t1).1 := (mem_GetAccounts t1 _).2 ⟨s, hs, ha⟩
  have hone : accountRows d1 C = 1 := by
    refine foldl_establish
      (fun p db => (SafeAddAccount eng (h1.account p) db).andThen
        (SafeAddTagToAccount (h1.account p).Name "main"))
      (fun d => accountRows d C ≤ 1) (fun d => accountRows d C = 1)
      (fun p => (stable_accountRows_le C).keeps_accountStep eng h1 p)
      (fun p => ((stable_accountRows_le C).and (stable_accountRows_one C)).keeps_accountStep
        eng h1 p)
      a ?_ _ e1 d1 hle1 hmem has
    intro d d' hd hstep
    have hhas := accountStep_done_has eng h1 a d d' hstep
    rw [hac] at hhas
    have hpos := (accountRows_pos d' C).2 hhas
    have hle := (stable_accountRows_le C).keeps_accountStep eng h1 a d hd
    simp only [hstep, Run.db] at hle
    omega
  have hfirst : accountRows (Insert eng h1 t1 db).db C = 1 := by
    unfold Insert
    rw [hr]
    exact (stable_accountRows_one C).keeps_AddTransaction eng h1 t1 d1 hone
  exact (stable_accountRows_one C).keeps_Insert eng h2 t2 _ hfirst

/-- Witness of C2: `exTxn1` and then `exTxn2` (whose account record of code `1000`
carries another name), on the empty state, with an engine that executes every
statement and with one that rejects the split statement. -/
theorem C2_one_account_row_witness :
    accountRows (Insert Engine.reliable exHeap2 exTxn2
      (Insert Engine.reliable exHeap exTxn1 DB.empty).db).db "1000" = 1 ∧
    accountRows (Insert exEngine exHeap2 exTxn2
      (Insert exEngine exHeap exTxn1 DB.empty).db).db "1000" = 1 :=
  ⟨C2_one_account_row Engine.reliable exHeap exHeap2 exTxn1 exTxn2 DB.empty
    (InsertResolve Engine.reliable exHeap exTxn1 DB.empty).db "1000"
    (by decide) (by decide) (by decide) (by decide),
   C2_one_account_row exEngine exHeap exHeap2 exTxn1 exTxn2 DB.empty
    (InsertResolve exEngine exHeap exTxn1 DB.empty).db "1000"
    (by decide) (by decide) (by decide) (by decide)⟩

/-! ## Claims on `AddTransaction` -/

theorem foldl_append_eq {α β : Type} (g : α → List β) (l : List α) (acc : List β) :
    l.foldl (fun vals s => vals ++ g s) acc = acc ++ l.foldr (fun s rest => g s ++ rest) [] := by
  induction l generalizing acc with
  | nil => simp
  | cons s l ih => simp [ih, List.append_assoc]

theorem rowsOfVals_splitVals (h : Heap) (txn : Transaction) :
    rowsOfVals (splitVals h txn) = txn.Splits.map (splitRow h) := by
  unfold splitVals
  rw [foldl_append_eq, List.nil_append]
  induction txn.Splits with
  | nil => rfl
  | cons s l ih =>
    rw [List.foldr_cons, List.map_cons, ← ih]
    rfl

/-- C1, as stated, fails: with an engine that executes every statement, the state after
the first `tx.Commit()` of `AddTransaction` on the one-split transaction `exTxn1` holds
the header and no row of its split; and when the split insert fails, the state left
behind holds the header without its split. -/
theorem C1_counterexample :
    (∃ c ∈ (AddTransaction Engine.reliable exHeap exTxn1 DB.empty).commits,
      ¬ AtomicallyVisible exTxn1 c) ∧
    ¬ AtomicallyVisible exTxn1 (AddTransaction exEngine exHeap exTxn1 DB.empty).result.db := by
  unfold AtomicallyVisible holdsHeader holdsSplit
  decide

/-- C1, amended: `AddTransaction` commits in two storage transactions.  When the engine
executes the header insert, the state after the first `tx.Commit()` is the starting
state plus the header row, its `splits` table as it was.  If the split insert is then
executed, a second commit adds one row per split to `splits` and the call returns; if it
fails, the first committed state, the header without splits, is what is left behind. -/
theorem C1_two_storage_transactions (eng : Engine) (h : Heap) (txn : Transaction) (db : DB)
    (hh : eng.accepts (headerStatement txn) db = true) :
    (eng.accepts (splitStatement h txn)
        { db with transactions := db.transactions ++ [headerRow txn] } = true →
      (AddTransaction eng h txn db).commits =
        [{ db with transactions := db.transactions ++ [headerRow txn] },
         { db with transactions := db.transactions ++ [headerRow txn],
                   splits := db.splits ++ rowsOfVals (splitVals h txn) }] ∧
      (AddTransaction eng h txn db).result =
        .done { db with transactions := db.transactions ++ [headerRow txn],
                        splits := db.splits ++ rowsOfVals (splitVals h txn) }) ∧
    (eng.accepts (splitStatement h txn)
        { db with transactions := db.transactions ++ [headerRow txn] } = false →
      (AddTransaction eng h txn db).commits =
        [{ db with transactions := db.transactions ++ [headerRow txn] }] ∧
      (AddTransaction eng h txn db).result =
        .fatal { db with transactions := db.transactions ++ [headerRow txn] }) ∧
    (rowsOfVals (splitVals h txn)).length = txn.Splits.length := by
  refine ⟨?_, ?_, ?_⟩
  · intro hs
    simp [AddTransaction, hh, hs]
  · intro hs
    simp [AddTransaction, hh, hs]
  · rw [rowsOfVals_splitVals, List.length_map]

/-- Witness of C1 amended: `exTxn1` on the empty state, once with an engine that
executes every statement and once with one that rejects the split statement. -/
theorem C1_two_storage_transactions_witness :
    ((AddTransaction Engine.reliable exHeap exTxn1 DB.empty).commits =
        [⟨[], [], [], [], [⟨"T1", 0, "first"⟩], []⟩,
         ⟨[], [], [], [], [⟨"T1", 0, "first"⟩], rowsOfVals (splitVals exHeap exTxn1)⟩] ∧
      (AddTransaction Engine.reliable exHeap exTxn1 DB.empty).result =
        .done ⟨[], [], [], [], [⟨"T1", 0, "first"⟩], rowsOfVals (splitVals exHeap exTxn1)⟩) ∧
    ((AddTransaction exEngine exHeap exTxn1 DB.empty).commits =
        [⟨[], [], [], [], [⟨"T1", 0, "first"⟩], []⟩] ∧
      (AddTransaction exEngine exHeap exTxn1 DB.empty).result =
        .fatal ⟨[], [], [], [], [⟨"T1", 0, "first"⟩], []⟩) :=
  ⟨(C1_two_storage_transactions Engine.reliable exHeap exTxn1 DB.empty (by decide)).1
      (by decide),
   (C1_two_storage_transactions exEngine exHeap exTxn1 DB.empty (by decide)).2.1
      (by decide)⟩

/-- C5 on the code: for the transaction `T1` with the single split `S1` of amount 100,
the split statement names five columns, its bound values end in the constant 10, and the
row written carries amount 10 and no transaction id, where the specification's row
carries amount 100 and transaction id `T1`. -/
theorem C5_split_row_written :
    splitStatement exHeap exTxn1 =
      ⟨"INSERT INTO splits(split_id, split_date, description, currency, amount)(?, ?, ?, ?, ?)",
       [.text "S1", .time 0, .text "sale", .text "USD", .int 10]⟩ ∧
    (AddTransaction Engine.reliable exHeap exTxn1 DB.empty).result =
      .done ⟨[], [], [], [], [⟨"T1", 0, "first"⟩], [⟨"S1", 0, "sale", "USD", 10, none⟩]⟩ ∧
    exTxn1.Splits.map (specSplitRow exHeap exTxn1) =
      [⟨"S1", 0, "sale", "USD", 100, some "T1"⟩] := by
  decide

/-! ## Validation claims on `Ledger.Insert` -/

theorem Insert_of_no_splits (eng : Engine) (h : Heap) (txn : Transaction) (db : DB)
    (hs : txn.Splits = []) :
    Insert eng h txn db =
      (SafeAddUser eng (h.user txn.Poster) db).andThen
        (fun d => (AddTransaction eng h txn d).result) := by
  unfold Insert InsertResolve GetCurrencies GetAccounts
  rw [hs]
  cases SafeAddUser eng (h.user txn.Poster) db <;> rfl

theorem splitVals_of_no_splits (h : Heap) (txn : Transaction) (hs : txn.Splits = []) :
    rowsOfVals (splitVals h txn) = [] := by
  rw [rowsOfVals_splitVals, hs]
  rfl

/-- C6, as stated, fails: `Ledger.Insert` on the transaction `exTxn0`, which has no
splits, on the empty state leaves a row in `users` and a row in `transactions`, both
with an engine that executes every statement (the call returns) and with one that
rejects the split statement (the call ends in `log.Fatal`). -/
theorem C6_counterexample :
    exTxn0.Splits = [] ∧
    Insert Engine.reliable exHeap exTxn0 DB.empty =
      .done ⟨[⟨"1", "alice"⟩], [], [], [], [⟨"T0", 0, "empty"⟩], []⟩ ∧
    Insert exEngine exHeap exTxn0 DB.empty =
      .fatal ⟨[⟨"1", "alice"⟩], [], [], [], [⟨"T0", 0, "empty"⟩], []⟩ := by
  decide

/-- C6, amended: `Ledger.Insert` does not validate and does not reject a transaction
whose split sequence is empty.  It leaves the `currencies`, `accounts`, `account_tags`
and `splits` tables unchanged, but it still runs `SafeAddUser` on the poster and
`AddTransaction`: when `SafeAddUser` returns and the engine executes the header insert,
the header row is committed to `transactions`, and a poster whose username is new is
added to `users` when the engine executes that insert. -/
theorem C6_empty_splits_still_committed (eng : Engine) (h : Heap) (txn : Transaction)
    (db : DB) (hs : txn.Splits = []) :
    (Insert eng h txn db).db.currencies = db.currencies ∧
    (Insert eng h txn db).db.accounts = db.accounts ∧
    (Insert eng h txn db).db.account_tags = db.account_tags ∧
    (Insert eng h txn db).db.splits = db.splits ∧
    (∀ d0, SafeAddUser eng (h.user txn.Poster) db = .done d0 →
      eng.accepts (headerStatement txn) d0 = true →
      (Insert eng h txn db).db.transactions = db.transactions ++ [headerRow txn]) ∧
    (¬ hasUser db (h.user txn.Poster).Name →
      eng.accepts ⟨insertUser, [.text (h.user txn.Poster).Id, .text (h.user txn.Poster).Name]⟩ db
        = true →
      (Insert eng h txn db).db.users =
        db.users ++ [⟨(h.user txn.Poster).Id, (h.user txn.Poster).Name⟩]) := by
  rw [Insert_of_no_splits eng h txn db hs]
  have hrows := splitVals_of_no_splits h txn hs
  have hu := SafeAddUser_db eng (h.user txn.Poster) db
  have frame : ∀ d0, (AddTransaction eng h txn d0).result.db.currencies = d0.currencies ∧
      (AddTransaction eng h txn d0).result.db.accounts = d0.accounts ∧
      (AddTransaction eng h txn d0).result.db.account_tags = d0.account_tags ∧
      (AddTransaction eng h txn d0).result.db.splits = d0.splits ∧
      (AddTransaction eng h txn d0).result.db.users = d0.users := by
    intro d0
    rcases AddTransaction_db eng h txn d0 with e | e | e <;> rw [e] <;> simp [hrows]
  have hdone : ∀ d0, eng.accepts (headerStatement txn) d0 = true →
      (AddTransaction eng h txn d0).result.db.transactions =
        d0.transactions ++ [headerRow txn] := by
    intro d0 ha
    unfold AddTransaction
    by_cases h2 : eng.accepts (splitStatement h txn)
        { d0 with transactions := d0.transactions ++ [headerRow txn] } = true
    · simp [ha, h2, Run.db]
    · simp [ha, h2, Run.db]
  cases hrun : SafeAddUser eng (h.user txn.Poster) db with
  | fatal d0 =>
    rw [hrun] at hu
    simp only [Run.db] at hu
    have hd : d0 = db := by
      rcases hu with e | e
      · exact e
      · exfalso
        unfold SafeAddUser AddUser at hrun
        cases hf : FindUser db (h.user txn.Poster).Name with
        | some u => simp [hf] at hrun
        | none =>
          simp only [hf] at hrun
          split at hrun
          · cases hrun
          · cases hrun
            have := congrArg DB.users e
            simp at this
    subst hd
    refine ⟨rfl, rfl, rfl, rfl, ?_, ?_⟩
    · intro d1 h1
      cases h1
    · intro hn ha
      rw [SafeAddUser_absent eng _ d0 hn] at hrun
      simp [AddUser, ha] at hrun
  | done d0 =>
    rw [hrun] at hu
    simp only [Run.db] at hu
    simp only [Run.andThen]
    obtain ⟨f1, f2, f3, f4, f5⟩ := frame d0
    refine ⟨?_, ?_, ?_, ?_, ?_, ?_⟩
    · rw [f1]; rcases hu with e | e <;> rw [e]
    · rw [f2]; rcases hu with e | e <;> rw [e]
    · rw [f3]; rcases hu with e | e <;> rw [e]
    · rw [f4]; rcases hu with e | e <;> rw [e]
    · intro d1 h1 ha
      cases h1
      rw [hdone d0 ha]
      rcases hu with e | e <;> rw [e]
    · intro hn ha
      rw [f5]
      rw [SafeAddUser_absent eng _ db hn] at hrun
      simp only [AddUser, ha, if_true] at hrun
      cases hrun
      rfl

/-- Witness of C6 amended: `exTxn0` on the empty state with an engine that executes
every statement. -/
theorem C6_empty_splits_still_committed_witness :
    (Insert Engine.reliable exHeap exTxn0 DB.empty).db.currencies = [] ∧
    (Insert Engine.reliable exHeap exTxn0 DB.empty).db.accounts = [] ∧
    (Insert Engine.reliable exHeap exTxn0 DB.empty).db.account_tags = [] ∧
    (Insert Engine.reliable exHeap exTxn0 DB.empty).db.splits = [] ∧
    (Insert Engine.reliable exHeap exTxn0 DB.empty).db.transactions = [⟨"T0", 0, "empty"⟩] ∧
    (Insert Engine.reliable exHeap exTxn0 DB.empty).db.users = [⟨"1", "alice"⟩] :=
  have w := C6_empty_splits_still_committed Engine.reliable exHeap exTxn0 DB.empty (by decide)
  ⟨w.1, w.2.1, w.2.2.1, w.2.2.2.1,
    w.2.2.2.2.1 ⟨[⟨"1", "alice"⟩], [], [], [], [], []⟩ (by decide) (by decide),
    w.2.2.2.2.2 (by unfold hasUser; decide) (by decide)⟩

theorem SafeAddUser_reliable (usr : User) (d : DB) :
    ∃ d', SafeAddUser Engine.reliable usr d = .done d' ∧
      d'.transactions = d.transactions ∧ d'.splits = d.splits := by
  unfold SafeAddUser AddUser
  cases FindUser d usr.Name with
  | some u => exact ⟨d, rfl, rfl, rfl⟩
  | none => exact ⟨_, rfl, rfl, rfl⟩

theorem SafeAddCurrency_reliable (cur : Currency) (d : DB) :
    ∃ d', SafeAddCurrency Engine.reliable cur d = .done d' ∧
      d'.transactions = d.transactions ∧ d'.splits = d.splits := by
  unfold SafeAddCurrency AddCurrency
  cases FindCurrency d cur.Name with
  | some u => exact ⟨d, rfl, rfl, rfl⟩
  | none => exact ⟨_, rfl, rfl, rfl⟩

theorem accountStep_reliable (h : Heap) (a : Ptr) (d : DB) :
    ∃ d', (SafeAddAccount Engine.reliable (h.account a) d).andThen
        (SafeAddTagToAccount (h.account a).Name "main") = .done d' ∧
      d'.transactions = d.transactions ∧ d'.splits = d.splits := by
  have hacc : ∃ d1, SafeAddAccount Engine.reliable (h.account a) d = .done d1 ∧
      d1.transactions = d.transactions ∧ d1.splits = d.splits := by
    unfold SafeAddAccount AddAccount
    cases FindAccount d (h.account a).Code with
    | some u => exact ⟨d, rfl, rfl, rfl⟩
    | none => exact ⟨_, rfl, rfl, rfl⟩
  obtain ⟨d1, h1, ht, hs⟩ := hacc
  rw [h1]
  simp only [Run.andThen]
  unfold SafeAddTagToAccount
  by_cases hm : (⟨(h.account a).Name, "main"⟩ : TagRow) ∈ d1.account_tags
  · exact ⟨d1, by simp [hm], ht, hs⟩
  · exact ⟨{ d1 with account_tags := d1.account_tags ++ [⟨(h.account a).Name, "main"⟩] },
      by simp only [hm, if_false], ht, hs⟩

theorem InsertResolve_reliable (h : Heap) (txn : Transaction) (db : DB) :
    ∃ d', InsertResolve Engine.reliable h txn db = .done d' ∧
      d'.transactions = db.transactions ∧ d'.splits = db.splits := by
  obtain ⟨d0, h0, i0⟩ := SafeAddUser_reliable (h.user txn.Poster) db
  obtain ⟨d1, h1, i1⟩ := foldl_total (fun p => SafeAddCurrency Engine.reliable (h.currency p))
    (fun d => d.transactions = db.transactions ∧ d.splits = db.splits)
    (fun p d hd => by
      obtain ⟨d', e, ht, hs⟩ := SafeAddCurrency_reliable (h.currency p) d
      exact ⟨d', e, ht.trans hd.1, hs.trans hd.2⟩)
    (GetCurrencies txn).1 d0 i0
  obtain ⟨d2, h2, i2⟩ := foldl_total
    (fun p d => (SafeAddAccount Engine.reliable (h.account p) d).andThen
      (SafeAddTagToAccount (h.account p).Name "main"))
    (fun d => d.transactions = db.transactions ∧ d.splits = db.splits)
    (fun p d hd => by
      obtain ⟨d', e, ht, hs⟩ := accountStep_reliable h p d
      exact ⟨d', e, ht.trans hd.1, hs.trans hd.2⟩)
    (GetAccounts txn).1 d1 i1
  refine ⟨d2, ?_, i2⟩
  unfold InsertResolve
  simp only [h0, Run.done_andThen, h1, h2]

theorem Insert_reliable_returns (h : Heap) (txn : Transaction) (db : DB) :
    ∃ d', Insert Engine.reliable h txn db = .done d' := by
  obtain ⟨d1, h1, _⟩ := InsertResolve_reliable h txn db
  unfold Insert
  rw [h1]
  exact ⟨_, rfl⟩

theorem InsertResolve_frame (eng : Engine) (h : Heap) (txn : Transaction) (db : DB) :
    (InsertResolve eng h txn db).db.transactions = db.transactions ∧
    (InsertResolve eng h txn db).db.splits = db.splits := by
  have hu : ∀ usr, Preserves
      (fun d => d.transactions = db.transactions ∧ d.splits = db.splits)
      (SafeAddUser eng usr) := by
    intro usr d hd
    rcases SafeAddUser_db eng usr d with e | e <;> rw [e] <;> exact hd
  have hc : ∀ cur, Preserves
      (fun d => d.transactions = db.transactions ∧ d.splits = db.splits)
      (SafeAddCurrency eng cur) := by
    intro cur d hd
    rcases SafeAddCurrency_db eng cur d with e | e <;> rw [e] <;> exact hd
  have ha : ∀ acc, Preserves
      (fun d => d.transactions = db.transactions ∧ d.splits = db.splits)
      (SafeAddAccount eng acc) := by
    intro acc d hd
    rcases SafeAddAccount_db eng acc d with e | ⟨_, e⟩ <;> rw [e] <;> exact hd
  have ht : ∀ account tag, Preserves
      (fun d => d.transactions = db.transactions ∧ d.splits = db.splits)
      (SafeAddTagToAccount account tag) := by
    intro account tag d hd
    rcases SafeAddTagToAccount_db account tag d with e | e <;> rw [e] <;> exact hd
  unfold InsertResolve
  apply Run.andThen_db (fun d => d.transactions = db.transactions ∧ d.splits = db.splits)
    _ _ (hu _ db ⟨rfl, rfl⟩)
  intro d1 hd1
  apply Run.andThen_db (fun d => d.transactions = db.transactions ∧ d.splits = db.splits)
  · exact foldl_preserves (fun p => SafeAddCurrency eng (h.currency p)) _
      (fun p => hc _) _ (.done d1) hd1
  · intro d2 hd2
    exact foldl_preserves _ _
      (fun p => Preserves.andThen _ _ _ (ha (h.account p)) (ht (h.account p).Name "main"))
      _ (.done d2) hd2

/-- C7, as stated, fails: the one-split transaction `exTxn1` has amounts in `USD` that
sum to 100, and `Ledger.Insert` does not reject it: with an engine that executes every
statement the header row and the split row are written, and with one that rejects the
split statement the header row is written. -/
theorem C7_counterexample :
    specCurrencySum exHeap exTxn1 "USD" = 100 ∧
    (∃ db', Insert Engine.reliable exHeap exTxn1 DB.empty = .done db' ∧
      db'.transactions = [⟨"T1", 0, "first"⟩] ∧
      db'.splits.map SplitRow.split_id = ["S1"]) ∧
    (Insert exEngine exHeap exTxn1 DB.empty).db.transactions = [⟨"T1", 0, "first"⟩] :=
  ⟨by decide, ⟨_, rfl, by decide, by decide⟩, by decide⟩

/-- C7, amended: `Ledger.Insert` makes no balance check.  Whatever the split amounts
sum to per currency, once the resolve-or-create calls have returned it calls
`AddTransaction`: the header row is committed to `transactions` when the engine executes
the header insert, and when the engine also executes the split insert the call returns
with one row per split, carrying the split id, in split order, appended to `splits`. -/
theorem C7_no_balance_check (eng : Engine) (h : Heap) (txn : Transaction) (db d1 : DB)
    (hr : InsertResolve eng h txn db = .done d1)
    (hh : eng.accepts (headerStatement txn) d1 = true) :
    (Insert eng h txn db).db.transactions = db.transactions ++ [headerRow txn] ∧
    (eng.accepts (splitStatement h txn)
        { d1 with transactions := d1.transactions ++ [headerRow txn] } = true →
      ∃ db', Insert eng h txn db = .done db' ∧
        db'.splits.map SplitRow.split_id =
          db.splits.map SplitRow.split_id ++ txn.Splits.map Split.Id) := by
  have hf := InsertResolve_frame eng h txn db
  rw [hr] at hf
  simp only [Run.db] at hf
  have hI : Insert eng h txn db = (AddTransaction eng h txn d1).result := by
    unfold Insert
    rw [hr]
    rfl
  rw [hI]
  constructor
  · unfold AddTransaction
    by_cases h2 : eng.accepts (splitStatement h txn)
        { d1 with transactions := d1.transactions ++ [headerRow txn] } = true
    · simpa [hh, h2, Run.db] using hf.1
    · simpa [hh, h2, Run.db] using hf.1
  · intro h2
    refine ⟨{ d1 with transactions := d1.transactions ++ [headerRow txn],
                      splits := d1.splits ++ rowsOfVals (splitVals h txn) }, ?_, ?_⟩
    · simp [AddTransaction, hh, h2]
    · simp [hf.2, rowsOfVals_splitVals, splitRow, Function.comp_def]

/-- Witness of C7 amended: the unbalanced transaction `exTxn1` on the empty state, with
an engine that executes every statement. -/
theorem C7_no_balance_check_witness :
    (Insert Engine.reliable exHeap exTxn1 DB.empty).db.transactions =
      DB.empty.transactions ++ [headerRow exTxn1] ∧
    ∃ db', Insert Engine.reliable exHeap exTxn1 DB.empty = .done db' ∧
      db'.splits.map SplitRow.split_id =
        DB.empty.splits.map SplitRow.split_id ++ exTxn1.Splits.map Split.Id :=
  have w := C7_no_balance_check Engine.reliable exHeap exTxn1 DB.empty
    (InsertResolve Engine.reliable exHeap exTxn1 DB.empty).db (by decide) (by decide)
  ⟨w.1, w.2 (by decide)⟩

/-- C8 on the code: for the transaction `exTxn1`, whose split references the account
with code `1000` and name `Cash`, `Ledger.Insert` creates the account row under the code
and attaches the tag `main` under the name: `account_tags` holds (`Cash`, `main`) and no
row for `1000`, whether or not the engine executes the split statement. -/
theorem C8_tag_keyed_by_name :
    exHeap.account 1 = ⟨"1000", "Cash"⟩ ∧
    (Insert Engine.reliable exHeap exTxn1 DB.empty).db.accounts = [⟨"1000", "Cash"⟩] ∧
    (Insert Engine.reliable exHeap exTxn1 DB.empty).db.account_tags = [⟨"Cash", "main"⟩] ∧
    (⟨"1000", "main"⟩ : TagRow) ∉
      (Insert Engine.reliable exHeap exTxn1 DB.empty).db.account_tags ∧
    (Insert exEngine exHeap exTxn1 DB.empty).db.account_tags = [⟨"Cash", "main"⟩] := by
  decide

end GoDBLedger
